import Mathlib

/-!
Verification development for the rule-aggregation pipeline in
scripts/merge.py.  The Python code is shallowly embedded: strings are
Lean strings manipulated through their character lists, Python sets of
rule strings become Finset String, fallible operations return Option
or Except, and the thread-pool based include resolution is embedded as
a fuel-indexed state-passing recursion (the Python code mutates the
shared processed_includes set only from the coordinating loop, so a
sequential state-threading model is faithful).
-/

/-- Python str.strip() whitespace characters (the ASCII ones). -/
def isPySpace (c : Char) : Bool :=
  c == ' ' || c == '\t' || c == '\n' || c == '\r' || c == '\x0b' || c == '\x0c'

/-- Strip whitespace from both ends of a character list (Python str.strip). -/
def stripChars (cs : List Char) : List Char :=
  ((cs.dropWhile isPySpace).reverse.dropWhile isPySpace).reverse

/-- Python str.strip() on a string. -/
def pyStrip (s : String) : String := ⟨stripChars s.data⟩

/-- Python str.lower() (ASCII case folding suffices for the rule files). -/
def pyLower (s : String) : String := ⟨s.data.map Char.toLower⟩

/-- Whether the first list is a prefix of the second (character lists). -/
def leadsWith : List Char → List Char → Bool
  | [], _ => true
  | _ :: _, [] => false
  | p :: ps, c :: cs => p == c && leadsWith ps cs

/-- Python s.startswith(pat). -/
def beginsWith (s pat : String) : Bool := leadsWith pat.data s.data

/-- Python s.split(sep, 1) for a single-character separator: returns the
text before the first colon and the text after it, or none when the
string has no colon. -/
def splitFirstColon : List Char → Option (List Char × List Char)
  | [] => none
  | c :: cs =>
      if c == ':' then some ([], cs)
      else
        match splitFirstColon cs with
        | some (p, v) => some (c :: p, v)
        | none => none

/-- Python line.split(sep, 1)[1] when a colon is present (the include
branch only reaches this with a colon in the line). -/
def afterFirstColon (s : String) : String :=
  match splitFirstColon s.data with
  | some pv => ⟨pv.2⟩
  | none => s

/-- Python str.splitlines (newline-separated; a trailing carriage return
is later removed by strip, so modelling the LF separator suffices). -/
def splitlinesAux (acc : List Char) : List Char → List (List Char)
  | [] => if acc.isEmpty then [] else [acc.reverse]
  | c :: cs =>
      if c == '\n' then acc.reverse :: splitlinesAux [] cs
      else splitlinesAux (c :: acc) cs

/-- Python content.splitlines(). -/
def splitlines (s : String) : List String :=
  (splitlinesAux [] s.data).map (fun l => ⟨l⟩)

/-- self.v2fly_rule_map: {'full': 'DOMAIN', 'domain': 'DOMAIN-SUFFIX',
'keyword': 'DOMAIN-KEYWORD'} as a lookup function. -/
def v2fly_rule_map (k : String) : Option String :=
  if k = "full" then some "DOMAIN"
  else if k = "domain" then some "DOMAIN-SUFFIX"
  else if k = "keyword" then some "DOMAIN-KEYWORD"
  else none

/-- RuleProcessor._parse_v2fly_line.  The membership test uses the raw
text before the colon (case sensitive); the rule type is then read via
.get(parts[0].lower()), whose None default is rendered like Python's
f-string would render it. -/
def parse_v2fly_line (line : String) : Option String :=
  let l := pyStrip line
  if l = "" then none
  else if beginsWith l "#" then none
  else
    match splitFirstColon l.data with
    | some (p, v) =>
        match v2fly_rule_map ⟨p⟩ with
        | some _ =>
            some (((v2fly_rule_map (pyLower ⟨p⟩)).getD "None") ++ "," ++ pyStrip ⟨v⟩)
        | none => some ("DOMAIN-SUFFIX," ++ l)
    | none => some ("DOMAIN-SUFFIX," ++ l)

theorem dropWhile_eq_of_forall {p : Char → Bool} :
    ∀ cs : List Char, (∀ c ∈ cs, p c = false) → cs.dropWhile p = cs
  | [], _ => rfl
  | c :: cs, h => by
      have hc : p c = false := h c (List.mem_cons_self c cs)
      simp [List.dropWhile, hc]

theorem stripChars_eq_self {cs : List Char} (h : ∀ c ∈ cs, isPySpace c = false) :
    stripChars cs = cs := by
  unfold stripChars
  rw [dropWhile_eq_of_forall cs h,
      dropWhile_eq_of_forall cs.reverse (fun c hc => h c (List.mem_reverse.mp hc)),
      List.reverse_reverse]

theorem pyStrip_eq_self {s : String} (h : ∀ c ∈ s.data, isPySpace c = false) :
    pyStrip s = s := by
  show String.mk (stripChars s.data) = s
  rw [stripChars_eq_self h]

theorem splitFirstColon_append {pre rest : List Char}
    (h : ∀ c ∈ pre, (c == ':') = false) :
    splitFirstColon (pre ++ ':' :: rest) = some (pre, rest) := by
  induction pre with
  | nil => simp [splitFirstColon]
  | cons c cs ih =>
      have hc : (c == ':') = false := h c (List.mem_cons_self c cs)
      simp only [List.cons_append, splitFirstColon, hc, Bool.false_eq_true, if_false,
        List.append_eq, ih (fun d hd => h d (List.mem_cons_of_mem c hd))]

theorem splitFirstColon_of_no_colon {cs : List Char}
    (h : ∀ c ∈ cs, (c == ':') = false) :
    splitFirstColon cs = none := by
  induction cs with
  | nil => rfl
  | cons c cs ih =>
      have hc : (c == ':') = false := h c (List.mem_cons_self c cs)
      simp only [splitFirstColon, hc, Bool.false_eq_true, if_false,
        ih (fun d hd => h d (List.mem_cons_of_mem c hd))]

theorem string_mk_data (s : String) : String.mk s.data = s := rfl

theorem string_data_append (s t : String) : (s ++ t).data = s.data ++ t.data := rfl

theorem string_data_nil (s : String) (h : s ≠ "") : s.data ≠ [] := by
  intro h0
  exact h (String.ext (h0.trans rfl))

theorem leadsWith_hash_append {xs ys : List Char} (hne : xs ≠ [])
    (h : leadsWith ['#'] xs = false) : leadsWith ['#'] (xs ++ ys) = false := by
  cases xs with
  | nil => exact absurd rfl hne
  | cons c cs => simpa [leadsWith] using h

/-- A line PREFIX:VALUE with a recognized prefix maps through
v2fly_rule_map: the common core of the canonicalization claims. -/
theorem parse_v2fly_line_mapped (k t V : String)
    (hk : v2fly_rule_map k = some t)
    (hklower : pyLower k = k)
    (hkspace : ∀ c ∈ k.data, isPySpace c = false)
    (hkcolon : ∀ c ∈ k.data, (c == ':') = false)
    (hkne : k ≠ "")
    (hkhash : beginsWith k "#" = false)
    (hV : ∀ c ∈ V.data, isPySpace c = false) :
    parse_v2fly_line (k ++ ":" ++ V) = some (t ++ "," ++ V) := by
  have hdata : (k ++ ":" ++ V).data = k.data ++ ':' :: V.data := by
    rw [string_data_append, string_data_append]
    simp
  have hspace : ∀ c ∈ (k ++ ":" ++ V).data, isPySpace c = false := by
    rw [hdata]
    intro c hc
    rcases List.mem_append.mp hc with h1 | h2
    · exact hkspace c h1
    · rcases List.mem_cons.mp h2 with h3 | h4
      · subst h3; decide
      · exact hV c h4
  have hstrip : pyStrip (k ++ ":" ++ V) = k ++ ":" ++ V := pyStrip_eq_self hspace
  have hne2 : (k ++ ":" ++ V) ≠ "" := by
    intro h0
    have : (k ++ ":" ++ V).data = [] := by rw [h0]
    rw [hdata] at this
    simp at this
  have hhash2 : beginsWith (k ++ ":" ++ V) "#" = false := by
    show leadsWith "#".data (k ++ ":" ++ V).data = false
    rw [hdata]
    exact leadsWith_hash_append (string_data_nil k hkne) hkhash
  simp only [parse_v2fly_line]
  rw [hstrip, if_neg hne2, hhash2]
  simp only [Bool.false_eq_true, if_false]
  rw [hdata, splitFirstColon_append hkcolon]
  simp only [string_mk_data, hk, hklower, Option.getD_some]
  rw [pyStrip_eq_self hV]

/-- A stripped, non-blank, non-comment line with no colon at all falls
through to the bare-domain default. -/
theorem parse_v2fly_line_bare (L : String)
    (hL : ∀ c ∈ L.data, isPySpace c = false)
    (hne : L ≠ "")
    (hhash : beginsWith L "#" = false)
    (hcolon : ∀ c ∈ L.data, (c == ':') = false) :
    parse_v2fly_line L = some ("DOMAIN-SUFFIX," ++ L) := by
  simp only [parse_v2fly_line]
  rw [pyStrip_eq_self hL, if_neg hne, hhash]
  simp only [Bool.false_eq_true, if_false]
  rw [splitFirstColon_of_no_colon hcolon]

/-- C3: the line-oriented normalizer maps each non-comment, non-blank
rule line to exactly one canonical rule: full:V gives DOMAIN,V,
domain:V gives DOMAIN-SUFFIX,V, keyword:V gives DOMAIN-KEYWORD,V and a
prefix-less bare line L gives DOMAIN-SUFFIX,L (V and L taken free of
surrounding whitespace, L containing no colon). -/
theorem parse_v2fly_line_canonical (V L : String)
    (hV : ∀ c ∈ V.data, isPySpace c = false)
    (hL : ∀ c ∈ L.data, isPySpace c = false)
    (hne : L ≠ "")
    (hhash : beginsWith L "#" = false)
    (hcolon : ∀ c ∈ L.data, (c == ':') = false) :
    parse_v2fly_line ("full:" ++ V) = some ("DOMAIN," ++ V) ∧
    parse_v2fly_line ("domain:" ++ V) = some ("DOMAIN-SUFFIX," ++ V) ∧
    parse_v2fly_line ("keyword:" ++ V) = some ("DOMAIN-KEYWORD," ++ V) ∧
    parse_v2fly_line L = some ("DOMAIN-SUFFIX," ++ L) := by
  refine ⟨?_, ?_, ?_, parse_v2fly_line_bare L hL hne hhash hcolon⟩
  · exact parse_v2fly_line_mapped "full" "DOMAIN" V rfl rfl
      (by decide) (by decide) (by decide) (by decide) hV
  · exact parse_v2fly_line_mapped "domain" "DOMAIN-SUFFIX" V rfl rfl
      (by decide) (by decide) (by decide) (by decide) hV
  · exact parse_v2fly_line_mapped "keyword" "DOMAIN-KEYWORD" V rfl rfl
      (by decide) (by decide) (by decide) (by decide) hV

/-- Witness for C3 at the four concrete example lines of the spec. -/
theorem parse_v2fly_line_canonical_witness :
    parse_v2fly_line "full:example.com" = some "DOMAIN,example.com" ∧
    parse_v2fly_line "example.com" = some "DOMAIN-SUFFIX,example.com" ∧
    parse_v2fly_line "domain:example.org" = some "DOMAIN-SUFFIX,example.org" ∧
    parse_v2fly_line "keyword:ads" = some "DOMAIN-KEYWORD,ads" := by
  have h1 := parse_v2fly_line_canonical "example.com" "example.com"
    (by decide) (by decide) (by decide) (by decide) (by decide)
  have h2 := parse_v2fly_line_canonical "example.org" "example.com"
    (by decide) (by decide) (by decide) (by decide) (by decide)
  have h3 := parse_v2fly_line_canonical "ads" "example.com"
    (by decide) (by decide) (by decide) (by decide) (by decide)
  exact ⟨h1.1, h1.2.2.2, h2.2.1, h3.2.2.1⟩

/-- C10 (implicit): prefix recognition is exact and lowercase-only.  A
stripped, non-blank, non-comment line that does contain a colon but
whose text before the first colon is not a key of v2fly_rule_map is
treated as a bare domain: the whole line, colon included, becomes the
value of a DOMAIN-SUFFIX rule. -/
theorem parse_v2fly_line_unrecognized (line : String) (p v : List Char)
    (hstrip : pyStrip line = line)
    (hne : line ≠ "")
    (hhash : beginsWith line "#" = false)
    (hsplit : splitFirstColon line.data = some (p, v))
    (hmap : v2fly_rule_map ⟨p⟩ = none) :
    parse_v2fly_line line = some ("DOMAIN-SUFFIX," ++ line) := by
  simp only [parse_v2fly_line]
  rw [hstrip, if_neg hne, hhash]
  simp only [Bool.false_eq_true, if_false]
  rw [hsplit]
  simp only [hmap]

/-- Witness for C10 at regexp:foo (unrecognized prefix) and
FULL:example.com (uppercase variant of a recognized prefix). -/
theorem parse_v2fly_line_unrecognized_witness :
    parse_v2fly_line "regexp:foo" = some "DOMAIN-SUFFIX,regexp:foo" ∧
    parse_v2fly_line "FULL:example.com" = some "DOMAIN-SUFFIX,FULL:example.com" := by
  constructor
  · exact parse_v2fly_line_unrecognized "regexp:foo"
      "regexp".data "foo".data (by decide) (by decide) (by decide) (by decide) (by decide)
  · exact parse_v2fly_line_unrecognized "FULL:example.com"
      "FULL".data "example.com".data (by decide) (by decide) (by decide) (by decide) (by decide)

example : parse_v2fly_line "full:example.com" = some "DOMAIN,example.com" := by decide
example : parse_v2fly_line "example.com" = some "DOMAIN-SUFFIX,example.com" := by decide
example : parse_v2fly_line "domain:example.org" = some "DOMAIN-SUFFIX,example.org" := by decide
example : parse_v2fly_line "keyword:ads" = some "DOMAIN-KEYWORD,ads" := by decide
example : parse_v2fly_line "FULL:example.com" = some "DOMAIN-SUFFIX,FULL:example.com" := by decide
example : parse_v2fly_line "regexp:foo" = some "DOMAIN-SUFFIX,regexp:foo" := by decide
example : parse_v2fly_line "  # comment" = none := by decide
example : parse_v2fly_line "   " = none := by decide

/-! ## Python string ordering

Python sorted() compares strings lexicographically by code point; the
comparator below is that order, executable down to Nat comparisons. -/

def strLeb : List Char → List Char → Bool
  | [], _ => true
  | _ :: _, [] => false
  | a :: as, b :: bs =>
      if a.toNat < b.toNat then true
      else if b.toNat < a.toNat then false
      else strLeb as bs

/-- Python string less-or-equal, as used by sorted(). -/
def pyLe (s t : String) : Prop := strLeb s.data t.data = true

instance : DecidableRel pyLe := fun s t =>
  inferInstanceAs (Decidable (strLeb s.data t.data = true))

theorem char_toNat_inj {a b : Char} (h : a.toNat = b.toNat) : a = b :=
  Char.ext (UInt32.ext h)

theorem strLeb_cons_iff (a b : Char) (as bs : List Char) :
    strLeb (a :: as) (b :: bs) = true ↔
      a.toNat < b.toNat ∨ (a.toNat = b.toNat ∧ strLeb as bs = true) := by
  simp only [strLeb]
  by_cases h1 : a.toNat < b.toNat
  · rw [if_pos h1]
    simp [h1]
  · rw [if_neg h1]
    by_cases h2 : b.toNat < a.toNat
    · rw [if_pos h2]
      constructor
      · intro h; exact absurd h (by simp)
      · rintro (h | ⟨he, _⟩) <;> omega
    · rw [if_neg h2]
      have he : a.toNat = b.toNat := by omega
      constructor
      · intro h; exact Or.inr ⟨he, h⟩
      · rintro (h | ⟨_, hr⟩)
        · omega
        · exact hr

theorem strLeb_trans : ∀ as bs cs : List Char,
    strLeb as bs = true → strLeb bs cs = true → strLeb as cs = true
  | [], _, _, _, _ => rfl
  | _ :: _, [], _, h1, _ => by simp [strLeb] at h1
  | _ :: _, _ :: _, [], _, h2 => by simp [strLeb] at h2
  | a :: as, b :: bs, c :: cs, h1, h2 => by
      rw [strLeb_cons_iff] at h1 h2 ⊢
      rcases h1 with h1 | ⟨h1e, h1r⟩
      · rcases h2 with h2 | ⟨h2e, _⟩
        · left; omega
        · left; omega
      · rcases h2 with h2 | ⟨h2e, h2r⟩
        · left; omega
        · exact Or.inr ⟨by omega, strLeb_trans as bs cs h1r h2r⟩

theorem strLeb_antisymm : ∀ as bs : List Char,
    strLeb as bs = true → strLeb bs as = true → as = bs
  | [], [], _, _ => rfl
  | [], _ :: _, _, h2 => by simp [strLeb] at h2
  | _ :: _, [], h1, _ => by simp [strLeb] at h1
  | a :: as, b :: bs, h1, h2 => by
      rw [strLeb_cons_iff] at h1 h2
      rcases h1 with h1 | ⟨h1e, h1r⟩
      · rcases h2 with h2 | ⟨h2e, _⟩ <;> omega
      · rcases h2 with h2 | ⟨h2e, h2r⟩
        · omega
        · rw [char_toNat_inj h1e, strLeb_antisymm as bs h1r h2r]

theorem strLeb_total : ∀ as bs : List Char,
    strLeb as bs = true ∨ strLeb bs as = true
  | [], _ => Or.inl rfl
  | _ :: _, [] => Or.inr rfl
  | a :: as, b :: bs => by
      rw [strLeb_cons_iff, strLeb_cons_iff]
      rcases Nat.lt_trichotomy a.toNat b.toNat with h | h | h
      · exact Or.inl (Or.inl h)
      · rcases strLeb_total as bs with h2 | h2
        · exact Or.inl (Or.inr ⟨h, h2⟩)
        · exact Or.inr (Or.inr ⟨h.symm, h2⟩)
      · exact Or.inr (Or.inl h)

instance : IsTrans String pyLe :=
  ⟨fun _ _ _ h1 h2 => strLeb_trans _ _ _ h1 h2⟩

instance : IsAntisymm String pyLe :=
  ⟨fun s t h1 h2 => String.ext (strLeb_antisymm s.data t.data h1 h2)⟩

instance : IsTotal String pyLe :=
  ⟨fun s t => strLeb_total s.data t.data⟩

/-! ## Diff and persistence store: RuleProcessor.save_to_file -/

/-- Outcome of one save_to_file call.  fileAfter is the snapshot payload
on disk once the call returns (none models an absent file); noChanges
records whether the No-changes-detected log line was emitted; added and
removed are the reported diffs (only computed on the write path). -/
structure SaveResult where
  noChanges : Bool
  wrote : Bool
  fileAfter : Option (List String)
  added : Finset String
  removed : Finset String
deriving DecidableEq

/-- The prior rule set recovered from the snapshot file: absence (or,
in the source, an unreadable or payload-less file) yields the empty
set, otherwise set(data['payload']). -/
def original_rules_of (priorFile : Option (List String)) : Finset String :=
  match priorFile with
  | some payload => payload.toFinset
  | none => ∅

/-- RuleProcessor.save_to_file: compare the sorted new rules with the
sorted prior rules; on equality, log no changes and return without
writing; otherwise write the sorted list as the payload and report
added = rules - original_rules and removed = original_rules - rules. -/
def save_to_file (rules : Finset String) (priorFile : Option (List String)) : SaveResult :=
  let original_rules := original_rules_of priorFile
  let sorted_rules := rules.sort pyLe
  let sorted_original_rules := original_rules.sort pyLe
  if sorted_rules = sorted_original_rules then
    { noChanges := true, wrote := false, fileAfter := priorFile,
      added := ∅, removed := ∅ }
  else
    { noChanges := false, wrote := true, fileAfter := some sorted_rules,
      added := rules \ original_rules, removed := original_rules \ rules }

/-- C4: when the new RuleSet differs from the prior snapshot, the store
writes the new set sorted in ascending lexicographic order and reports
added = new - prior and removed = prior - new. -/
theorem save_to_file_diff (rules : Finset String) (priorFile : Option (List String))
    (h : rules ≠ original_rules_of priorFile) :
    (save_to_file rules priorFile).wrote = true ∧
    (save_to_file rules priorFile).fileAfter = some (rules.sort pyLe) ∧
    (save_to_file rules priorFile).added = rules \ original_rules_of priorFile ∧
    (save_to_file rules priorFile).removed = original_rules_of priorFile \ rules := by
  have hsort : rules.sort pyLe ≠ (original_rules_of priorFile).sort pyLe := by
    intro h0
    exact h (by
      have h1 := congrArg List.toFinset h0
      rwa [Finset.sort_toFinset, Finset.sort_toFinset] at h1)
  simp only [save_to_file, if_neg hsort]
  refine ⟨?_, ?_, ?_, ?_⟩ <;> trivial

/-- Witness for C4 with prior {X,Y} and new {Y,Z}: reports
added = {Z}, removed = {X}, persists the sorted sequence [Y,Z]. -/
theorem save_to_file_diff_witness :
    ({"Y", "Z"} : Finset String) ≠ original_rules_of (some ["X", "Y"]) ∧
    (save_to_file {"Y", "Z"} (some ["X", "Y"])).wrote = true ∧
    (save_to_file {"Y", "Z"} (some ["X", "Y"])).fileAfter = some ["Y", "Z"] ∧
    (save_to_file {"Y", "Z"} (some ["X", "Y"])).added = {"Z"} ∧
    (save_to_file {"Y", "Z"} (some ["X", "Y"])).removed = {"X"} := by
  have h := save_to_file_diff {"Y", "Z"} (some ["X", "Y"]) (by decide)
  have hsort : ({"Y", "Z"} : Finset String).sort pyLe = ["Y", "Z"] := by
    rw [Finset.sort_insert pyLe (fun b hb => by
          rcases Finset.mem_singleton.mp hb with rfl
          decide)
        (by decide), Finset.sort_singleton]
  refine ⟨by decide, h.1, ?_, ?_, ?_⟩
  · rw [h.2.1, hsort]
  · rw [h.2.2.1]; decide
  · rw [h.2.2.2]; decide

/-- C5: if the freshly computed rules, sorted, equal the prior sorted
sequence, no write happens, no changes is reported, and the snapshot
file is left untouched; an absent snapshot reads back as the empty
prior set. -/
theorem save_to_file_no_changes (rules : Finset String) (priorFile : Option (List String))
    (h : rules.sort pyLe = (original_rules_of priorFile).sort pyLe) :
    (save_to_file rules priorFile).wrote = false ∧
    (save_to_file rules priorFile).noChanges = true ∧
    (save_to_file rules priorFile).fileAfter = priorFile ∧
    original_rules_of none = (∅ : Finset String) := by
  simp only [save_to_file, if_pos h]
  refine ⟨?_, ?_, ?_, ?_⟩ <;> trivial

/-- Witness for C5 at rules {A} and prior snapshot [A]. -/
theorem save_to_file_no_changes_witness :
    ({"A"} : Finset String).sort pyLe =
      (original_rules_of (some ["A"])).sort pyLe ∧
    (save_to_file {"A"} (some ["A"])).wrote = false ∧
    (save_to_file {"A"} (some ["A"])).noChanges = true ∧
    (save_to_file {"A"} (some ["A"])).fileAfter = some ["A"] := by
  have hs : ({"A"} : Finset String).sort pyLe =
      (original_rules_of (some ["A"])).sort pyLe := by
    show ({"A"} : Finset String).sort pyLe = (["A"] : List String).toFinset.sort pyLe
    rfl
  have h := save_to_file_no_changes {"A"} (some ["A"]) hs
  exact ⟨hs, h.1, h.2.1, h.2.2.1⟩

/-- C7: persistence is idempotent.  Whatever the first call left on
disk, a second call with the same RuleSet reads it back through the
snapshot encoding, finds the sorted sequences equal, performs no write
and reports no changes. -/
theorem save_to_file_idempotent (rules : Finset String) (priorFile : Option (List String)) :
    (save_to_file rules ((save_to_file rules priorFile).fileAfter)).wrote = false ∧
    (save_to_file rules ((save_to_file rules priorFile).fileAfter)).noChanges = true := by
  by_cases h : rules.sort pyLe = (original_rules_of priorFile).sort pyLe
  · have hfa : (save_to_file rules priorFile).fileAfter = priorFile := by
      simp only [save_to_file, if_pos h]
    rw [hfa]
    simp only [save_to_file, if_pos h]
    refine ⟨?_, ?_⟩ <;> trivial
  · have hfa : (save_to_file rules priorFile).fileAfter = some (rules.sort pyLe) := by
      simp only [save_to_file, if_neg h]
    rw [hfa]
    have hre : original_rules_of (some (rules.sort pyLe)) = rules := by
      simp only [original_rules_of, Finset.sort_toFinset]
    simp only [save_to_file, hre, if_pos rfl]
    refine ⟨?_, ?_⟩ <;> trivial

/-! ## Structured-list normalizer: RuleProcessor.process_yaml_content -/

/-- Parsed YAML values, as far as the normalizer observes them:
strings, other scalars (null, numbers, booleans), sequences and
mappings with string keys. -/
inductive Yaml where
  | str (s : String)
  | scalarOther
  | seq (items : List Yaml)
  | dict (entries : List (String × Yaml))

/-- Python mapping access: 'payload' in data and data['payload']. -/
def yamlLookup (k : String) : List (String × Yaml) → Option Yaml
  | [] => none
  | (k2, v) :: rest => if k2 = k then some v else yamlLookup k rest

/-- Python iteration over data['payload']: a list yields its items, a
string yields its one-character substrings, a mapping yields its keys,
and any other scalar is not iterable (TypeError). -/
def yamlElems : Yaml → Option (List Yaml)
  | .seq items => some items
  | .str s => some (s.data.map (fun ch => Yaml.str ⟨[ch]⟩))
  | .dict entries => some (entries.map (fun e => Yaml.str e.1))
  | .scalarOther => none

/-- The loop body of process_yaml_content: an entry that is a string
not starting with '#' is stripped and added; every other entry is
skipped. -/
def payloadStep (acc : Finset String) (it : Yaml) : Finset String :=
  match it with
  | .str r => if beginsWith r "#" then acc else insert (pyStrip r) acc
  | _ => acc

/-- The rules collected from the payload entries. -/
def payload_rules (items : List Yaml) : Finset String :=
  items.foldl payloadStep ∅

/-- RuleProcessor.process_yaml_content.  yaml.safe_load is a library
call outside this repository, so it is a parameter; its Except.error
case is the yaml.YAMLError that the function catches (returning the
empty set).  A falsy content returns the empty set up front.  A
payload that is not iterable raises TypeError, which the function does
not catch: that is the Except.error result. -/
def process_yaml_content (safeLoad : String → Except String Yaml) (content : String) :
    Except String (Finset String) :=
  if content = "" then .ok ∅
  else
    match safeLoad content with
    | .error _ => .ok ∅
    | .ok data =>
        match data with
        | .dict entries =>
            match yamlLookup "payload" entries with
            | none => .ok ∅
            | some payload =>
                match yamlElems payload with
                | some items => .ok (payload_rules items)
                | none => .error "TypeError: payload is not iterable"
        | _ => .ok ∅

/-- C8: malformed structured-list content, namely a parse failure, a
parse result that is not a mapping, or a mapping without the payload
key, makes the normalizer return an empty RuleSet without raising. -/
theorem process_yaml_content_malformed (safeLoad : String → Except String Yaml)
    (content : String) :
    (∀ e, safeLoad content = .error e →
      process_yaml_content safeLoad content = .ok ∅) ∧
    (∀ d, safeLoad content = .ok d → (∀ entries, d ≠ .dict entries) →
      process_yaml_content safeLoad content = .ok ∅) ∧
    (∀ entries, safeLoad content = .ok (.dict entries) →
      yamlLookup "payload" entries = none →
      process_yaml_content safeLoad content = .ok ∅) := by
  refine ⟨?_, ?_, ?_⟩
  · intro e he
    by_cases hc : content = ""
    · simp [process_yaml_content, hc]
    · simp [process_yaml_content, hc, he]
  · intro d hd hnd
    by_cases hc : content = ""
    · simp [process_yaml_content, hc]
    · cases d with
      | dict entries => exact absurd rfl (hnd entries)
      | str s => simp [process_yaml_content, hc, hd]
      | scalarOther => simp [process_yaml_content, hc, hd]
      | seq items => simp [process_yaml_content, hc, hd]
  · intro entries he hl
    by_cases hc : content = ""
    · simp [process_yaml_content, hc]
    · simp [process_yaml_content, hc, he, hl]

def yamlLoadError : String → Except String Yaml := fun _ => .error "scan error"

def yamlLoadSeq : String → Except String Yaml := fun _ => .ok (.seq [])

def yamlLoadNoPayload : String → Except String Yaml :=
  fun _ => .ok (.dict [("rules", .scalarOther)])

/-- Witness for C8 at a failing loader, a non-mapping document and a
mapping without a payload key. -/
theorem process_yaml_content_malformed_witness :
    process_yaml_content yamlLoadError "x" = .ok ∅ ∧
    process_yaml_content yamlLoadSeq "x" = .ok ∅ ∧
    process_yaml_content yamlLoadNoPayload "x" = .ok ∅ := by
  refine ⟨?_, ?_, ?_⟩
  · exact (process_yaml_content_malformed yamlLoadError "x").1 "scan error" rfl
  · exact (process_yaml_content_malformed yamlLoadSeq "x").2.1 (.seq []) rfl
      (fun entries h => Yaml.noConfusion h)
  · exact (process_yaml_content_malformed yamlLoadNoPayload "x").2.2
      [("rules", .scalarOther)] rfl rfl

/-- yaml.safe_load outcome for a document whose payload holds one
empty-string entry. -/
def yamlLoadBlankEntry : String → Except String Yaml :=
  fun _ => .ok (.dict [("payload", .seq [.str ""])])

/-- C9 counterexample: a payload whose single entry is the empty (blank)
string does contribute a rule: the normalizer returns the RuleSet
containing the empty string, not the empty RuleSet.  (The isinstance
filter only skips non-strings and strings starting with '#'.) -/
theorem process_yaml_content_blank_entry_counterexample :
    process_yaml_content yamlLoadBlankEntry "payload:\n- ''" = .ok {""} ∧
    process_yaml_content yamlLoadBlankEntry "payload:\n- ''" ≠ .ok (∅ : Finset String) := by
  have hEq : process_yaml_content yamlLoadBlankEntry "payload:\n- ''" =
      .ok ({""} : Finset String) := rfl
  refine ⟨hEq, ?_⟩
  intro h
  rw [hEq] at h
  injection h with h2
  simp at h2

theorem payload_rules_aux : ∀ (items : List Yaml) (acc : Finset String) (r : String),
    r ∈ items.foldl payloadStep acc ↔
      r ∈ acc ∨ ∃ s, Yaml.str s ∈ items ∧ beginsWith s "#" = false ∧ r = pyStrip s
  | [], acc, r => by simp
  | it :: items, acc, r => by
      rw [List.foldl_cons, payload_rules_aux items]
      cases it with
      | str s =>
          by_cases hs : beginsWith s "#" = true
          · simp only [payloadStep, hs, if_true, List.mem_cons]
            constructor
            · rintro (h | ⟨s2, h1, h2, h3⟩)
              · exact Or.inl h
              · exact Or.inr ⟨s2, Or.inr h1, h2, h3⟩
            · rintro (h | ⟨s2, h1 | h1, h2, h3⟩)
              · exact Or.inl h
              · injection h1 with h1
                subst h1
                rw [hs] at h2
                exact absurd h2 (by simp)
              · exact Or.inr ⟨s2, h1, h2, h3⟩
          · have hs2 : beginsWith s "#" = false := by
              cases hb : beginsWith s "#"
              · rfl
              · exact absurd hb hs
            simp only [payloadStep, hs2, Bool.false_eq_true, if_false, Finset.mem_insert,
              List.mem_cons]
            constructor
            · rintro ((h | h) | ⟨s2, h1, h2, h3⟩)
              · exact Or.inr ⟨s, Or.inl rfl, hs2, h⟩
              · exact Or.inl h
              · exact Or.inr ⟨s2, Or.inr h1, h2, h3⟩
            · rintro (h | ⟨s2, h1 | h1, h2, h3⟩)
              · exact Or.inl (Or.inr h)
              · injection h1 with h1
                subst h1
                exact Or.inl (Or.inl h3)
              · exact Or.inr ⟨s2, h1, h2, h3⟩
      | scalarOther =>
          simp only [payloadStep, List.mem_cons]
          constructor
          · rintro (h | ⟨s2, h1, h2, h3⟩)
            · exact Or.inl h
            · exact Or.inr ⟨s2, Or.inr h1, h2, h3⟩
          · rintro (h | ⟨s2, h1 | h1, h2, h3⟩)
            · exact Or.inl h
            · exact Yaml.noConfusion h1
            · exact Or.inr ⟨s2, h1, h2, h3⟩
      | seq l =>
          simp only [payloadStep, List.mem_cons]
          constructor
          · rintro (h | ⟨s2, h1, h2, h3⟩)
            · exact Or.inl h
            · exact Or.inr ⟨s2, Or.inr h1, h2, h3⟩
          · rintro (h | ⟨s2, h1 | h1, h2, h3⟩)
            · exact Or.inl h
            · exact Yaml.noConfusion h1
            · exact Or.inr ⟨s2, h1, h2, h3⟩
      | dict l =>
          simp only [payloadStep, List.mem_cons]
          constructor
          · rintro (h | ⟨s2, h1, h2, h3⟩)
            · exact Or.inl h
            · exact Or.inr ⟨s2, Or.inr h1, h2, h3⟩
          · rintro (h | ⟨s2, h1 | h1, h2, h3⟩)
            · exact Or.inl h
            · exact Yaml.noConfusion h1
            · exact Or.inr ⟨s2, h1, h2, h3⟩

/-- C9 amended: for a well-formed payload, a string entry beginning
with '#' contributes no rule and a non-string entry (for example the
null a blank sequence entry parses to) contributes no rule, but a
string entry not beginning with '#' contributes its stripped self,
including the empty string for an empty-string entry: membership in
the returned RuleSet is exactly the non-comment string entries,
stripped. -/
theorem process_yaml_content_entry_contribution
    (safeLoad : String → Except String Yaml) (content : String)
    (entries : List (String × Yaml)) (items : List Yaml)
    (hc : content ≠ "")
    (hload : safeLoad content = .ok (.dict entries))
    (hpayload : yamlLookup "payload" entries = some (.seq items)) :
    process_yaml_content safeLoad content = .ok (payload_rules items) ∧
    ∀ r, r ∈ payload_rules items ↔
      ∃ s, Yaml.str s ∈ items ∧ beginsWith s "#" = false ∧ r = pyStrip s := by
  constructor
  · simp [process_yaml_content, hc, hload, hpayload, yamlElems]
  · intro r
    rw [payload_rules, payload_rules_aux]
    simp

/-- yaml.safe_load outcome for a payload with a comment entry, an
empty-string entry and a null entry. -/
def yamlLoadMixedEntries : String → Except String Yaml :=
  fun _ => .ok (.dict [("payload", .seq [.str "# note", .str "", .scalarOther])])

/-- Witness for the amended C9 at a payload holding a comment string, an
empty string and a null. -/
theorem process_yaml_content_entry_contribution_witness :
    process_yaml_content yamlLoadMixedEntries "payload: [...]" =
      .ok (payload_rules [.str "# note", .str "", .scalarOther]) ∧
    ∀ r, r ∈ payload_rules [.str "# note", .str "", .scalarOther] ↔
      ∃ s, Yaml.str s ∈ [Yaml.str "# note", Yaml.str "", Yaml.scalarOther] ∧
        beginsWith s "#" = false ∧ r = pyStrip s :=
  process_yaml_content_entry_contribution yamlLoadMixedEntries "payload: [...]"
    [("payload", .seq [.str "# note", .str "", .scalarOther])]
    [.str "# note", .str "", .scalarOther]
    (by decide) rfl rfl

/-! ## Source aggregator: RuleProcessor.process_yaml_sources -/

/-- One completed fetch+normalize task of process_yaml_sources: the
future yields the content of download_file or read_local_file (none on
a failed fetch), falsy content is skipped, and an exception escaping
process_yaml_content is caught by the surrounding except handler and
contributes nothing; otherwise all_rules.update(rules). -/
def yamlSourceStep (safeLoad : String → Except String Yaml)
    (fetchSource : String → Option String)
    (acc : Finset String) (source : String) : Finset String :=
  match fetchSource source with
  | some content =>
      if content = "" then acc
      else
        match process_yaml_content safeLoad content with
        | .ok rules => acc ∪ rules
        | .error _ => acc
  | none => acc

/-- RuleProcessor.process_yaml_sources: as_completed yields the
finished tasks in an arbitrary completion order, and their rule sets
are merged into all_rules by set union. -/
def process_yaml_sources (safeLoad : String → Except String Yaml)
    (fetchSource : String → Option String)
    (completionOrder : List String) : Finset String :=
  completionOrder.foldl (yamlSourceStep safeLoad fetchSource) ∅

/-- The rules one source contributes to the merge. -/
def yamlSourceContribution (safeLoad : String → Except String Yaml)
    (fetchSource : String → Option String) (source : String) : Finset String :=
  match fetchSource source with
  | some content =>
      if content = "" then ∅
      else
        match process_yaml_content safeLoad content with
        | .ok rules => rules
        | .error _ => ∅
  | none => ∅

theorem yamlSourceStep_eq_union (safeLoad : String → Except String Yaml)
    (fetchSource : String → Option String)
    (acc : Finset String) (source : String) :
    yamlSourceStep safeLoad fetchSource acc source =
      acc ∪ yamlSourceContribution safeLoad fetchSource source := by
  unfold yamlSourceStep yamlSourceContribution
  cases fetchSource source with
  | none => simp
  | some content =>
      by_cases hc : content = ""
      · simp [hc]
      · simp only [hc, Bool.false_eq_true, if_false, if_neg hc]
        cases process_yaml_content safeLoad content with
        | ok rules => rfl
        | error e => simp

/-- C6: the merged RuleSet of a category is the same for every
permutation of the order in which the per-source fetch+normalize tasks
complete; the merge is a plain set union. -/
theorem process_yaml_sources_perm (safeLoad : String → Except String Yaml)
    (fetchSource : String → Option String)
    {order1 order2 : List String} (h : order1.Perm order2) :
    process_yaml_sources safeLoad fetchSource order1 =
      process_yaml_sources safeLoad fetchSource order2 := by
  have key : ∀ {l1 l2 : List String}, l1.Perm l2 → ∀ acc : Finset String,
      l1.foldl (yamlSourceStep safeLoad fetchSource) acc =
        l2.foldl (yamlSourceStep safeLoad fetchSource) acc := by
    intro l1 l2 hp
    induction hp with
    | nil => intro acc; rfl
    | cons x hp2 ih =>
        intro acc
        simp only [List.foldl_cons]
        exact ih _
    | swap x y l =>
        intro acc
        simp only [List.foldl_cons]
        rw [yamlSourceStep_eq_union, yamlSourceStep_eq_union,
          yamlSourceStep_eq_union, yamlSourceStep_eq_union,
          Finset.union_right_comm]
    | trans hp1 hp2 ih1 ih2 =>
        intro acc
        exact (ih1 acc).trans (ih2 acc)
  exact key h ∅

def fetchSourceC6 : String → Option String :=
  fun s =>
    if s = "srcA" then some "docA"
    else if s = "srcB" then some "docB"
    else none

def yamlLoadC6 : String → Except String Yaml :=
  fun content =>
    if content = "docA" then .ok (.dict [("payload", .seq [.str "DOMAIN,a.example"])])
    else .ok (.dict [("payload", .seq [.str "DOMAIN,b.example"])])

/-- Witness for C6 at a two-source category whose tasks complete in the
two possible orders. -/
theorem process_yaml_sources_perm_witness :
    (["srcA", "srcB"] : List String).Perm ["srcB", "srcA"] ∧
    process_yaml_sources yamlLoadC6 fetchSourceC6 ["srcA", "srcB"] =
      process_yaml_sources yamlLoadC6 fetchSourceC6 ["srcB", "srcA"] :=
  ⟨List.Perm.swap "srcB" "srcA" [],
   process_yaml_sources_perm yamlLoadC6 fetchSourceC6 (List.Perm.swap "srcB" "srcA" [])⟩

/-! ## Line-oriented normalizer and include resolver:
RuleProcessor._recursive_parse_v2fly / process_v2fly_category -/

/-- State of the first pass of _recursive_parse_v2fly over the lines of
one file: rules parsed so far, the shared processed_includes set, and
the includes newly scheduled by this file in first-sight order. -/
structure ScanSt where
  rules : Finset String
  processed : Finset String
  toFetch : List String

/-- One line of the first pass: skip blank and comment lines; an
include name not yet in processed_includes is added to the set first
and then scheduled, one already present is skipped; any other line is
parsed as a rule. -/
def scan_line (st : ScanSt) (rawLine : String) : ScanSt :=
  let line := pyStrip rawLine
  if line = "" then st
  else if beginsWith line "#" then st
  else if beginsWith line "include:" then
    let name := pyStrip (afterFirstColon line)
    if name ∈ st.processed then st
    else { st with processed := insert name st.processed,
                   toFetch := st.toFetch ++ [name] }
  else
    match parse_v2fly_line line with
    | some r => { st with rules := insert r st.rules }
    | none => st

/-- The whole first pass. -/
def scan_lines (lines : List String) (st : ScanSt) : ScanSt :=
  lines.foldl scan_line st

/-- Result of one _recursive_parse_v2fly call (also the fold state of
its second pass): the rules, the processed_includes set on return, the
names submitted to the fetcher at all depths, and whether the bounded
recursion completed without exhausting its fuel. -/
structure VRes where
  rules : Finset String
  processed : Finset String
  log : List String
  ok : Bool

/-- The as_completed loop of _recursive_parse_v2fly: a failed or falsy
download contributes nothing; otherwise the body is recursively parsed
(rec), sharing the processed_includes set, and its rules are merged
into the accumulator. -/
def process_includes (rec : String → Finset String → VRes) (fetch : String → Option String) :
    List String → VRes → VRes
  | [], st => st
  | name :: rest, st =>
      match fetch name with
      | some content =>
          if content = "" then process_includes rec fetch rest st
          else
            let r := rec content st.processed
            process_includes rec fetch rest
              { rules := st.rules ∪ r.rules, processed := r.processed,
                log := st.log ++ r.log, ok := st.ok && r.ok }
      | none => process_includes rec fetch rest st

/-- One level of _recursive_parse_v2fly: the first pass over the lines
(with a fresh rules set and empty schedule but the shared
processed_includes set), then the as_completed loop over the newly
scheduled includes.  The log records every name submitted to the
fetcher: this file's own schedule, then everything submitted below. -/
def recursive_parse_step (rec : String → Finset String → VRes)
    (fetch : String → Option String) (content : String) (processed : Finset String) : VRes :=
  let s := scan_lines (splitlines content)
    { rules := ∅, processed := processed, toFetch := [] }
  let r := process_includes rec fetch s.toFetch
    { rules := s.rules, processed := s.processed, log := [], ok := true }
  { rules := r.rules, processed := r.processed, log := s.toFetch ++ r.log, ok := r.ok }

/-- RuleProcessor._recursive_parse_v2fly.  The Python function recurses
without an explicit bound; here fuel is spent one unit per nesting
level and the ok flag records that it was never exhausted, so a result
with ok = true is exactly the value the unbounded recursion computes. -/
def recursive_parse_v2fly (fetch : String → Option String) :
    Nat → String → Finset String → VRes
  | 0, _, processed => { rules := ∅, processed := processed, log := [], ok := false }
  | fuel + 1, content, processed =>
      recursive_parse_step (recursive_parse_v2fly fetch fuel) fetch content processed

/-- The finite include universe: the bodies reachable under
V2FLY_BASE_URL, as an association list from include name to body.  A
finite include graph is one drawn from such an environment. -/
def FetchEnv : Type := List (String × String)

/-- The Fetcher for includes: download_file(V2FLY_BASE_URL + name),
none modelling a failed download. -/
def envFetch : FetchEnv → String → Option String
  | [], _ => none
  | (k, v) :: rest, name => if k = name then some v else envFetch rest name

/-- The include names the environment can serve. -/
def envDom (env : FetchEnv) : Finset String :=
  (env.map Prod.fst).toFinset

/-- RuleProcessor.process_v2fly_category: the initial download's content
(none for a failed download) is parsed with a fresh processed_includes
set; a falsy initial content aborts with the empty set.  Fuel
env.length + 1 never runs out on a graph drawn from env (theorem
recursive_parse_v2fly_ok below). -/
def process_v2fly_category (env : FetchEnv) (initialContent : Option String) : VRes :=
  match initialContent with
  | none => { rules := ∅, processed := ∅, log := [], ok := true }
  | some content =>
      if content = "" then { rules := ∅, processed := ∅, log := [], ok := true }
      else recursive_parse_v2fly (envFetch env) (env.length + 1) content ∅

example :
    (process_v2fly_category [("B", "domain:b.example\ninclude:A")]
      (some "include:B\nfull:a.example\ninclude:A")).rules =
    {"DOMAIN,a.example", "DOMAIN-SUFFIX,b.example"} := by decide

example :
    (process_v2fly_category [("B", "domain:b.example\ninclude:A")]
      (some "include:B\nfull:a.example\ninclude:A")).log = ["B", "A", "A"] → False := by decide

example :
    (process_v2fly_category [("B", "domain:b.example\ninclude:A")]
      (some "include:B\nfull:a.example\ninclude:A")).log = ["B", "A"] := by decide

/-- Invariant of the first pass, relative to the processed_includes set
p0 at entry: the newly scheduled names are distinct, each was absent
from p0, and each was added to the shared set before being scheduled
(the set is exactly p0 plus the schedule). -/
def ScanInv (p0 : Finset String) (st : ScanSt) : Prop :=
  st.toFetch.Nodup ∧ st.processed = p0 ∪ st.toFetch.toFinset ∧ ∀ n ∈ st.toFetch, n ∉ p0

theorem scan_line_inv (p0 : Finset String) (st : ScanSt) (rawLine : String)
    (h : ScanInv p0 st) : ScanInv p0 (scan_line st rawLine) := by
  obtain ⟨h1, h2, h3⟩ := h
  simp only [scan_line]
  split
  · exact ⟨h1, h2, h3⟩
  · split
    · exact ⟨h1, h2, h3⟩
    · split
      · split
        · exact ⟨h1, h2, h3⟩
        · rename_i hmem
          have hnotf : pyStrip (afterFirstColon (pyStrip rawLine)) ∉ st.toFetch := by
            intro hf
            exact hmem (by rw [h2]; exact Finset.mem_union_right _ (List.mem_toFinset.mpr hf))
          have hnp0 : pyStrip (afterFirstColon (pyStrip rawLine)) ∉ p0 := by
            intro hf
            exact hmem (by rw [h2]; exact Finset.mem_union_left _ hf)
          refine ⟨?_, ?_, ?_⟩
          · simp [List.nodup_append, h1, hnotf]
          · show insert _ st.processed = p0 ∪ (st.toFetch ++ [_]).toFinset
            rw [h2]
            ext x
            simp only [Finset.mem_insert, Finset.mem_union, List.mem_toFinset,
              List.mem_append, List.mem_singleton]
            tauto
          · intro n hn
            rcases List.mem_append.mp hn with h4 | h4
            · exact h3 n h4
            · rcases List.mem_singleton.mp h4 with rfl
              exact hnp0
      · split
        · exact ⟨h1, h2, h3⟩
        · exact ⟨h1, h2, h3⟩

theorem scan_lines_inv (lines : List String) :
    ∀ (p0 : Finset String) (st : ScanSt), ScanInv p0 st →
      ScanInv p0 (scan_lines lines st) := by
  induction lines with
  | nil => intro p0 st h; exact h
  | cons l ls ih => intro p0 st h; exact ih p0 (scan_line st l) (scan_line_inv p0 st l h)

/-- Invariant of a resolver result relative to the processed set p0 at
entry: the set only grows, the fetched names are pairwise distinct, and
every fetched name was fresh at entry and is in the set on return. -/
def LogInv (p0 : Finset String) (r : VRes) : Prop :=
  p0 ⊆ r.processed ∧ r.log.Nodup ∧ ∀ n ∈ r.log, n ∉ p0 ∧ n ∈ r.processed

theorem process_includes_inv (fetch : String → Option String)
    (rec : String → Finset String → VRes)
    (hrec : ∀ c p, LogInv p (rec c p)) :
    ∀ (names : List String) (st : VRes) (p1 : Finset String),
      LogInv p1 st → LogInv p1 (process_includes rec fetch names st) := by
  intro names
  induction names with
  | nil => intro st p1 h; exact h
  | cons name rest ih =>
      intro st p1 h
      obtain ⟨h1, h2, h3⟩ := h
      simp only [process_includes]
      split
      · rename_i content heq
        split
        · exact ih st p1 ⟨h1, h2, h3⟩
        · apply ih
          obtain ⟨m1, m2, m3⟩ := hrec content st.processed
          refine ⟨h1.trans m1, ?_, ?_⟩
          · show (st.log ++ (rec content st.processed).log).Nodup
            rw [List.nodup_append]
            refine ⟨h2, m2, ?_⟩
            intro a ha hb
            exact (m3 a hb).1 ((h3 a ha).2)
          · intro n hn
            rcases List.mem_append.mp hn with h4 | h4
            · exact ⟨(h3 n h4).1, m1 ((h3 n h4).2)⟩
            · exact ⟨fun hp => (m3 n h4).1 (h1 hp), (m3 n h4).2⟩
      · exact ih st p1 ⟨h1, h2, h3⟩

theorem envFetch_mem_dom : ∀ (env : FetchEnv) (name : String) (c : String),
    envFetch env name = some c → name ∈ envDom env
  | [], _, _, h => by simp [envFetch] at h
  | (k, v) :: rest, name, c, h => by
      simp only [envFetch] at h
      by_cases hk : k = name
      · subst hk
        simp [envDom]
      · rw [if_neg hk] at h
        have := envFetch_mem_dom rest name c h
        simp only [envDom, List.map_cons, List.toFinset_cons, Finset.mem_insert]
        exact Or.inr (by simpa [envDom] using this)

theorem process_includes_ok (env : FetchEnv) (fuel : Nat)
    (rec : String → Finset String → VRes)
    (hrecinv : ∀ c p, LogInv p (rec c p))
    (hrec : ∀ (c : String) (p : Finset String), (envDom env \ p).card < fuel →
      (rec c p).ok = true)
    (p0 : Finset String) (hfuel : (envDom env \ p0).card ≤ fuel) :
    ∀ (names : List String) (st : VRes),
      st.ok = true → p0 ⊆ st.processed →
      (∀ n ∈ names, n ∈ st.processed ∧ n ∉ p0) →
      (process_includes rec (envFetch env) names st).ok = true := by
  intro names
  induction names with
  | nil => intro st hok _ _; exact hok
  | cons name rest ih =>
      intro st hok hsub hnames
      simp only [process_includes]
      split
      · rename_i content heq
        split
        · exact ih st hok hsub (fun n hn => hnames n (List.mem_cons_of_mem name hn))
        · obtain ⟨m1, _, _⟩ := hrecinv content st.processed
          have hdom : name ∈ envDom env := envFetch_mem_dom env name content heq
          obtain ⟨hinp, hnotp0⟩ := hnames name (List.mem_cons_self name rest)
          have hcard : (envDom env \ st.processed).card < fuel := by
            have hsubdiff : envDom env \ st.processed ⊆ (envDom env \ p0).erase name := by
              intro m hm
              rw [Finset.mem_erase]
              obtain ⟨hm1, hm2⟩ := Finset.mem_sdiff.mp hm
              refine ⟨?_, Finset.mem_sdiff.mpr ⟨hm1, fun hmp0 => hm2 (hsub hmp0)⟩⟩
              intro hmn
              exact hm2 (hmn ▸ hinp)
            have h1 := Finset.card_le_card hsubdiff
            rw [Finset.card_erase_of_mem (Finset.mem_sdiff.mpr ⟨hdom, hnotp0⟩)] at h1
            have h2 : 0 < (envDom env \ p0).card :=
              Finset.card_pos.mpr ⟨name, Finset.mem_sdiff.mpr ⟨hdom, hnotp0⟩⟩
            omega
          have hrok : (rec content st.processed).ok = true := hrec content st.processed hcard
          apply ih
          · show (st.ok && (rec content st.processed).ok) = true
            rw [hok, hrok]
            rfl
          · exact hsub.trans m1
          · intro n hn
            obtain ⟨hn1, hn2⟩ := hnames n (List.mem_cons_of_mem name hn)
            exact ⟨m1 hn1, hn2⟩
      · exact ih st hok hsub (fun n hn => hnames n (List.mem_cons_of_mem name hn))

theorem recursive_parse_step_inv (rec : String → Finset String → VRes)
    (fetch : String → Option String) (hrec : ∀ c p, LogInv p (rec c p))
    (content : String) (p0 : Finset String) :
    LogInv p0 (recursive_parse_step rec fetch content p0) := by
  set S := scan_lines (splitlines content)
    { rules := ∅, processed := p0, toFetch := [] } with hS
  obtain ⟨s1, s2, s3⟩ : ScanInv p0 S :=
    scan_lines_inv (splitlines content) p0 _ ⟨List.nodup_nil, by simp, by simp⟩
  set R := process_includes rec fetch S.toFetch
    { rules := S.rules, processed := S.processed, log := [], ok := true } with hR
  obtain ⟨m1, m2, m3⟩ : LogInv S.processed R :=
    process_includes_inv fetch rec hrec S.toFetch
      { rules := S.rules, processed := S.processed, log := [], ok := true }
      S.processed ⟨Finset.Subset.refl _, List.nodup_nil, by simp⟩
  have hp0S : p0 ⊆ S.processed := by
    rw [s2]
    exact Finset.subset_union_left
  have hstep : recursive_parse_step rec fetch content p0 =
      { rules := R.rules, processed := R.processed, log := S.toFetch ++ R.log,
        ok := R.ok } := rfl
  rw [hstep]
  refine ⟨hp0S.trans m1, ?_, ?_⟩
  · show (S.toFetch ++ R.log).Nodup
    rw [List.nodup_append]
    refine ⟨s1, m2, ?_⟩
    intro a ha hb
    exact (m3 a hb).1 (by rw [s2]; exact Finset.mem_union_right _ (List.mem_toFinset.mpr ha))
  · intro n hn
    rcases List.mem_append.mp hn with h4 | h4
    · refine ⟨s3 n h4, ?_⟩
      exact m1 (by rw [s2]; exact Finset.mem_union_right _ (List.mem_toFinset.mpr h4))
    · exact ⟨fun hp => (m3 n h4).1 (hp0S hp), (m3 n h4).2⟩

theorem recursive_parse_v2fly_inv (fetch : String → Option String) :
    ∀ (fuel : Nat) (content : String) (p0 : Finset String),
      LogInv p0 (recursive_parse_v2fly fetch fuel content p0)
  | 0, _, p0 =>
      ⟨Finset.Subset.refl p0, List.nodup_nil,
        fun n hn => absurd hn (List.not_mem_nil n)⟩
  | fuel + 1, content, p0 =>
      recursive_parse_step_inv (recursive_parse_v2fly fetch fuel) fetch
        (recursive_parse_v2fly_inv fetch fuel) content p0

theorem recursive_parse_v2fly_ok (env : FetchEnv) :
    ∀ (fuel : Nat) (content : String) (p0 : Finset String),
      (envDom env \ p0).card < fuel →
      (recursive_parse_v2fly (envFetch env) fuel content p0).ok = true
  | 0, _, _, h => absurd h (by omega)
  | fuel + 1, content, p0, h => by
      show (recursive_parse_step (recursive_parse_v2fly (envFetch env) fuel)
        (envFetch env) content p0).ok = true
      set S := scan_lines (splitlines content)
        { rules := ∅, processed := p0, toFetch := [] } with hS
      obtain ⟨s1, s2, s3⟩ : ScanInv p0 S :=
        scan_lines_inv (splitlines content) p0 _ ⟨List.nodup_nil, by simp, by simp⟩
      show (process_includes (recursive_parse_v2fly (envFetch env) fuel) (envFetch env)
        S.toFetch { rules := S.rules, processed := S.processed, log := [], ok := true }).ok = true
      apply process_includes_ok env fuel (recursive_parse_v2fly (envFetch env) fuel)
        (recursive_parse_v2fly_inv (envFetch env) fuel)
        (fun c p hcp => recursive_parse_v2fly_ok env fuel c p hcp)
        p0 (by omega) S.toFetch
        { rules := S.rules, processed := S.processed, log := [], ok := true }
        rfl
      · show p0 ⊆ S.processed
        rw [s2]
        exact Finset.subset_union_left
      · intro n hn
        refine ⟨?_, s3 n hn⟩
        show n ∈ S.processed
        rw [s2]
        exact Finset.mem_union_right _ (List.mem_toFinset.mpr hn)

/-- C1: for every finite include graph, the top-level line-oriented
resolution terminates (the bounded recursion never exhausts its
env.length + 1 fuel, cyclic and diamond graphs included) and passes
each distinct include name to the Fetcher at most once (the fetch log
has no duplicates), because a name is added to the shared
processed_includes set before being scheduled and a name already
present is never rescheduled. -/
theorem process_v2fly_category_fetch_once (env : FetchEnv)
    (initialContent : Option String) :
    (process_v2fly_category env initialContent).ok = true ∧
    (process_v2fly_category env initialContent).log.Nodup := by
  cases initialContent with
  | none => exact ⟨rfl, List.nodup_nil⟩
  | some content =>
      by_cases hc : content = ""
      · simp only [process_v2fly_category, if_pos hc]
        exact ⟨trivial, List.nodup_nil⟩
      · simp only [process_v2fly_category, if_neg hc]
        constructor
        · apply recursive_parse_v2fly_ok
          have h1 : (envDom env).card ≤ env.length := by
            calc (envDom env).card ≤ (env.map Prod.fst).length :=
                  List.toFinset_card_le _
            _ = env.length := List.length_map _ _
          rw [Finset.sdiff_empty]
          omega
        · exact (recursive_parse_v2fly_inv (envFetch env) (env.length + 1) content ∅).2.1

/-- The canonical rule of one raw line as seen by the first pass: blank,
comment and include lines produce none, any other line goes through
the line parser. -/
def line_rule (rawLine : String) : Option String :=
  let line := pyStrip rawLine
  if line = "" then none
  else if beginsWith line "#" then none
  else if beginsWith line "include:" then none
  else parse_v2fly_line line

/-- The canonical rules parsed from a file's own rule lines. -/
def own_rules (content : String) : Finset String :=
  ((splitlines content).filterMap line_rule).toFinset

/-- What one fetched include name contributes: nothing for a failed or
falsy fetch, the body's own rule lines otherwise. -/
def include_own_rules (fetch : String → Option String) (name : String) : Finset String :=
  match fetch name with
  | some content => if content = "" then ∅ else own_rules content
  | none => ∅

/-- The union of the contributions of the names in a fetch log. -/
def log_union (fetch : String → Option String) (log : List String) : Finset String :=
  (log.map (include_own_rules fetch)).foldr (· ∪ ·) ∅

theorem scan_line_rules (st : ScanSt) (rawLine : String) :
    (scan_line st rawLine).rules =
      match line_rule rawLine with
      | some r => insert r st.rules
      | none => st.rules := by
  by_cases h1 : pyStrip rawLine = ""
  · simp [scan_line, line_rule, h1]
  · by_cases h2 : beginsWith (pyStrip rawLine) "#" = true
    · simp [scan_line, line_rule, h1, h2]
    · by_cases h3 : beginsWith (pyStrip rawLine) "include:" = true
      · by_cases h4 : pyStrip (afterFirstColon (pyStrip rawLine)) ∈ st.processed
        · simp [scan_line, line_rule, h1, h2, h3, h4]
        · simp [scan_line, line_rule, h1, h2, h3, h4]
      · cases hp : parse_v2fly_line (pyStrip rawLine) with
        | some r => simp [scan_line, line_rule, h1, h2, h3, hp]
        | none => simp [scan_line, line_rule, h1, h2, h3, hp]

theorem scan_lines_rules : ∀ (lines : List String) (st : ScanSt),
    (scan_lines lines st).rules = st.rules ∪ (lines.filterMap line_rule).toFinset
  | [], st => by simp [scan_lines]
  | l :: ls, st => by
      show (scan_lines ls (scan_line st l)).rules = _
      rw [scan_lines_rules ls (scan_line st l), scan_line_rules]
      cases hp : line_rule l with
      | none => simp [List.filterMap_cons, hp]
      | some r =>
          simp only [List.filterMap_cons, hp, List.toFinset_cons]
          ext x
          simp only [Finset.mem_union, Finset.mem_insert, List.mem_toFinset]
          tauto

theorem foldr_union_init (l : List (Finset String)) (X : Finset String) :
    l.foldr (· ∪ ·) X = l.foldr (· ∪ ·) ∅ ∪ X := by
  induction l with
  | nil => simp
  | cons a l ih =>
      simp only [List.foldr_cons, ih]
      rw [Finset.union_assoc]

theorem log_union_cons (fetch : String → Option String) (name : String) (rest : List String) :
    log_union fetch (name :: rest) =
      include_own_rules fetch name ∪ log_union fetch rest := rfl

theorem log_union_append (fetch : String → Option String) (l1 l2 : List String) :
    log_union fetch (l1 ++ l2) = log_union fetch l1 ∪ log_union fetch l2 := by
  unfold log_union
  rw [List.map_append, List.foldr_append, foldr_union_init]

theorem process_includes_ok_mono (rec : String → Finset String → VRes)
    (fetch : String → Option String) :
    ∀ (names : List String) (st : VRes),
      (process_includes rec fetch names st).ok = true → st.ok = true
  | [], _, h => h
  | name :: rest, st, h => by
      simp only [process_includes] at h
      split at h
      · rename_i content heq
        split at h
        · exact process_includes_ok_mono rec fetch rest st h
        · have h2 := process_includes_ok_mono rec fetch rest _ h
          rw [Bool.and_eq_true] at h2
          exact h2.1
      · exact process_includes_ok_mono rec fetch rest st h

theorem process_includes_rules (fetch : String → Option String)
    (rec : String → Finset String → VRes)
    (hrec : ∀ c p, (rec c p).ok = true →
      (rec c p).rules = own_rules c ∪ log_union fetch (rec c p).log) :
    ∀ (names : List String) (st : VRes),
      (process_includes rec fetch names st).ok = true →
      ∃ d : List String,
        (process_includes rec fetch names st).log = st.log ++ d ∧
        (process_includes rec fetch names st).rules =
          st.rules ∪ log_union fetch names ∪ log_union fetch d
  | [], st, _ => ⟨[], by simp [process_includes], by simp [process_includes, log_union]⟩
  | name :: rest, st, h => by
      cases heq : fetch name with
      | none =>
          simp only [process_includes, heq] at h ⊢
          obtain ⟨d, hd1, hd2⟩ := process_includes_rules fetch rec hrec rest st h
          refine ⟨d, hd1, ?_⟩
          rw [hd2, log_union_cons]
          have hio : include_own_rules fetch name = ∅ := by
            simp [include_own_rules, heq]
          rw [hio, Finset.empty_union]
      | some content =>
          by_cases hce : content = ""
          · simp only [process_includes, heq] at h ⊢
            rw [if_pos hce] at h ⊢
            obtain ⟨d, hd1, hd2⟩ := process_includes_rules fetch rec hrec rest st h
            refine ⟨d, hd1, ?_⟩
            rw [hd2, log_union_cons]
            have hio : include_own_rules fetch name = ∅ := by
              simp [include_own_rules, heq, hce]
            rw [hio, Finset.empty_union]
          · simp only [process_includes, heq, if_neg hce] at h ⊢
            have hstok := process_includes_ok_mono rec fetch rest _ h
            rw [Bool.and_eq_true] at hstok
            have hrok : (rec content st.processed).ok = true := hstok.2
            obtain ⟨d2, hd1, hd2⟩ := process_includes_rules fetch rec hrec rest _ h
            refine ⟨(rec content st.processed).log ++ d2, ?_, ?_⟩
            · rw [hd1, List.append_assoc]
            · rw [hd2, hrec content st.processed hrok, log_union_cons, log_union_append]
              have hio : include_own_rules fetch name = own_rules content := by
                simp [include_own_rules, heq, hce]
              rw [hio]
              ext x
              simp only [Finset.mem_union]
              tauto

theorem recursive_parse_v2fly_rules (fetch : String → Option String) :
    ∀ (fuel : Nat) (content : String) (p0 : Finset String),
      (recursive_parse_v2fly fetch fuel content p0).ok = true →
      (recursive_parse_v2fly fetch fuel content p0).rules =
        own_rules content ∪
          log_union fetch (recursive_parse_v2fly fetch fuel content p0).log
  | 0, content, p0, h => by simp [recursive_parse_v2fly] at h
  | fuel + 1, content, p0, h => by
      set S := scan_lines (splitlines content)
        { rules := ∅, processed := p0, toFetch := [] } with hS
      set R := process_includes (recursive_parse_v2fly fetch fuel) fetch S.toFetch
        { rules := S.rules, processed := S.processed, log := [], ok := true } with hR
      have hok : R.ok = true := h
      obtain ⟨d, hd1, hd2⟩ := process_includes_rules fetch
        (recursive_parse_v2fly fetch fuel)
        (fun c p hcp => recursive_parse_v2fly_rules fetch fuel c p hcp)
        S.toFetch
        { rules := S.rules, processed := S.processed, log := [], ok := true } hok
      have hlog : R.log = d := hd1
      show R.rules = own_rules content ∪ log_union fetch (S.toFetch ++ R.log)
      rw [hd2, hlog, log_union_append]
      have hSrules : S.rules = own_rules content := by
        have h2 := scan_lines_rules (splitlines content)
          { rules := ∅, processed := p0, toFetch := [] }
        rw [hS, h2]
        exact Finset.empty_union _
      show S.rules ∪ log_union fetch S.toFetch ∪ log_union fetch d =
        own_rules content ∪ (log_union fetch S.toFetch ∪ log_union fetch d)
      rw [hSrules, Finset.union_assoc]

/-- C2: for every line-oriented source, the RuleSet of the top-level
resolution is the union of the canonical rules parsed from the
source's own rule lines and the rules contributed by every include
submitted to the Fetcher at any depth, where an include whose fetch
fails (or yields falsy content) contributes nothing and does not
disturb the contributions of the other includes. -/
theorem process_v2fly_category_rules (env : FetchEnv) (content : String) :
    (process_v2fly_category env (some content)).rules =
      own_rules content ∪
        log_union (envFetch env) (process_v2fly_category env (some content)).log := by
  by_cases hc : content = ""
  · subst hc
    simp only [process_v2fly_category, if_pos rfl]
    show ∅ = own_rules "" ∪ log_union (envFetch env) []
    rfl
  · simp only [process_v2fly_category, if_neg hc]
    apply recursive_parse_v2fly_rules
    apply recursive_parse_v2fly_ok
    have h1 : (envDom env).card ≤ env.length := by
      calc (envDom env).card ≤ (env.map Prod.fst).length := List.toFinset_card_le _
      _ = env.length := List.length_map _ _
    rw [Finset.sdiff_empty]
    omega
